import Mathlib

/-!
Verification of the dad-controller activity-enforcement engine
(`dad-controller.go`), as a shallow embedding in Lean 4.

Go `time.Duration` values are modelled as `Int` (a nanosecond count, as in
Go); `time.Time` is modelled by the record of the only accessors the engine
uses (`Year`, `Month`, `Day`, `Hour`, `Minute`, `Weekday`); Go maps are
modelled as association lists with update-in-place insertion, keyed lookup
and deletion (`lookupA`, `insertA`, `eraseA`).  A compiled regular
expression is modelled extensionally by its matching function
`String → Bool`, and `regexp.Compile` by an oracle
`String → Option (String → Bool)` (`none` = compilation error, in which
case the Go value is a nil `*Regexp`).  Calls to the external kill
collaborator are collected in a list of `Kill` records, in invocation
order.  Functions that can panic return `Option` (`none` = panic).
-/

namespace DadCtl

/-- Go `time.Weekday` (the seven values `time.Sunday` … `time.Saturday`). -/
inductive Weekday : Type
  | sunday | monday | tuesday | wednesday | thursday | friday | saturday
  deriving DecidableEq

/-- The slice of Go `time.Time` the engine reads: calendar date, time of
day to the minute, and weekday. -/
structure GoTime : Type where
  year : Int
  month : Int
  day : Int
  hour : Int
  minute : Int
  weekday : Weekday
  deriving DecidableEq

section AssocMap

variable {K V : Type} [DecidableEq K]

/-- Go map read `m[k]` (with its `found` flag as `Option`). -/
def lookupA : List (K × V) → K → Option V
  | [], _ => none
  | (k0, v0) :: rest, k => if k = k0 then some v0 else lookupA rest k

/-- Go map write `m[k] = v`: update in place if the key exists, else add. -/
def insertA : List (K × V) → K → V → List (K × V)
  | [], k, v => [(k, v)]
  | (k0, v0) :: rest, k, v =>
      if k = k0 then (k0, v) :: rest else (k0, v0) :: insertA rest k v

/-- Go `delete(m, k)`. -/
def eraseA : List (K × V) → K → List (K × V)
  | [], _ => []
  | (k0, v0) :: rest, k =>
      if k0 = k then eraseA rest k else (k0, v0) :: eraseA rest k

end AssocMap

/-- Go struct `timePeriod` (fields `Begin`, `End`, HHMM-encoded ints). -/
structure timePeriod : Type where
  Begin : Int
  End : Int
  deriving DecidableEq

/-- Go struct `schedule`: allowed periods and max duration for one weekday. -/
structure schedule : Type where
  AllowedPeriods : List timePeriod
  MaxDuration : Int
  deriving DecidableEq

/-- Go struct `activityRule`. -/
structure activityRule : Type where
  Name : String
  ProcessPatterns : List String
  AllowedSchedules : List (Weekday × schedule)
  deriving DecidableEq

/-- Go struct `runningProcess`. -/
structure runningProcess : Type where
  Pid : Int
  Path : String
  deriving DecidableEq

/-- Go struct `dadController` (the fields the engine logic uses; the
config-file fields and the injected hooks are external collaborators). -/
structure dadController : Type where
  SamplingInterval : Int
  Activities : List activityRule
  LastControlTime : GoTime
  ActivityDuration : List (Weekday × List (String × Int))
  deriving DecidableEq

/-- One invocation of the `KillRunningProcesses` collaborator. -/
structure Kill : Type where
  activity : String
  procs : List runningProcess
  reason : String
  deriving DecidableEq

/-- Reason string of the day-validity kill (verbatim from the source). -/
def dayReason : String := "Activity not allowed to be done on this day"

/-- Reason string of the duration kill (verbatim from the source). -/
def durReason : String := "Activity duration above threshold for this day"

/-- Reason string of the time-window kill (verbatim from the source). -/
def timeReason : String := "Activity not allowed to be done during this time range"

/-- The lookup loop of `getOrCreateActivityRule`: first rule whose `Name`
equals the activity, scanning `c.Activities` in order. -/
def findRule : List activityRule → String → Option activityRule
  | [], _ => none
  | a :: rest, n => if a.Name = n then some a else findRule rest n

/-- The rule `getOrCreateActivityRule` creates for an unknown activity:
the given name, no process patterns, an empty schedules map. -/
def emptyRule (n : String) : activityRule :=
  { Name := n, ProcessPatterns := [], AllowedSchedules := [] }

/-- Go `(c *dadController) getOrCreateActivityRule`: return the existing
rule by exact name, else append a fresh empty rule.  Returns the rule and
the (possibly extended) controller. -/
def getOrCreateActivityRule (c : dadController) (n : String) :
    activityRule × dadController :=
  match findRule c.Activities n with
  | some a => (a, c)
  | none => (emptyRule n, { c with Activities := c.Activities ++ [emptyRule n] })

/-- The rule `getOrCreateActivityRule` resolves for a name, ignoring the
state change: the stored rule if one exists, else the fresh empty rule. -/
def ruleFor (c : dadController) (n : String) : activityRule :=
  (findRule c.Activities n).getD (emptyRule n)

/-- Go `(c *dadController) GetActivityDuration`: duration counter of the
activity in the bucket of `LastControlTime.Weekday()`, `0` when the bucket
or the entry is missing. -/
def GetActivityDuration (c : dadController) (activity : String) : Int :=
  match lookupA c.ActivityDuration c.LastControlTime.weekday with
  | none => 0
  | some ad =>
      match lookupA ad activity with
      | none => 0
      | some d => d

/-- The day-rollover test of `updateActivityCounters`: any difference in
year, month or day between `now` and `LastControlTime`. -/
def dateChanged (now old : GoTime) : Bool :=
  decide (now.year ≠ old.year) || decide (now.month ≠ old.month) ||
    decide (now.day ≠ old.day)

/-- The counter-update loop of `updateActivityCounters`: for each activity
key, add one sampling interval to its entry (`0` when absent). -/
def bumpCounters (interval : Int) : List String → List (String × Int) → List (String × Int)
  | [], ad => ad
  | n :: rest, ad =>
      bumpCounters interval rest (insertA ad n ((lookupA ad n).getD 0 + interval))

/-- Go `(c *dadController) updateActivityCounters`: on a calendar-date
change delete the bucket keyed by `now.Weekday()`; set
`LastControlTime := now`; then, if the classified map is non-empty, create
the current-weekday bucket on demand and add one sampling interval to the
counter of every classified activity. -/
def updateActivityCounters (c : dadController)
    (rp : List (String × List runningProcess)) (now : GoTime) : dadController :=
  let ad0 :=
    if dateChanged now c.LastControlTime then
      eraseA c.ActivityDuration now.weekday
    else c.ActivityDuration
  let c1 : dadController := { c with LastControlTime := now, ActivityDuration := ad0 }
  if rp.isEmpty then c1
  else
    let day := c1.LastControlTime.weekday
    let bucket := (lookupA ad0 day).getD []
    { c1 with
      ActivityDuration :=
        insertA ad0 day (bumpCounters c.SamplingInterval (rp.map Prod.fst) bucket) }

/-- The HHMM time-of-day used by `controlActivities`:
`Hour()*100 + Minute()`. -/
def hhmm (t : GoTime) : Int := t.hour * 100 + t.minute

/-- The window test of `controlActivities`:
`dayTime >= ap.Begin && dayTime < ap.End`. -/
def inPeriod (dayTime : Int) (ap : timePeriod) : Bool :=
  decide (ap.Begin ≤ dayTime) && decide (dayTime < ap.End)

/-- The per-activity body of the `controlActivities` loop: the ordered,
short-circuiting checks.  `some r` means the activity is killed with
reason `r`, `none` means it is left alone.
Order as in the source: missing day schedule, then duration strictly above
`MaxDuration`, then no allowed period containing the current time. -/
def evalOne (ad : List (String × Int)) (day : Weekday) (dayTime : Int)
    (a : activityRule) (name : String) : Option String :=
  match lookupA a.AllowedSchedules day with
  | none => some dayReason
  | some sch =>
      if (lookupA ad name).getD 0 > sch.MaxDuration then some durReason
      else if sch.AllowedPeriods.any (inPeriod dayTime) then none
      else some timeReason

/-- The `for activity := range rp` loop of `controlActivities`, threading
the controller (rule auto-creation mutates `c.Activities`) and collecting
the kill invocations in order.  The processes passed to a kill are the map
read `rp[activity]`. -/
def caLoop (day : Weekday) (dayTime : Int) (ad : List (String × Int))
    (rp0 : List (String × List runningProcess)) :
    dadController → List (String × List runningProcess) → List Kill × dadController
  | c, [] => ([], c)
  | c, (name, _) :: rest =>
      let ac := getOrCreateActivityRule c name
      let tail := caLoop day dayTime ad rp0 ac.2 rest
      match evalOne ad day dayTime ac.1 name with
      | some r => (Kill.mk name ((lookupA rp0 name).getD []) r :: tail.1, tail.2)
      | none => tail

/-- Go `(c *dadController) controlActivities`: read the current-weekday
bucket (early return when missing — "should never happen"), then evaluate
every classified activity. -/
def controlActivities (c : dadController)
    (rp : List (String × List runningProcess)) : List Kill × dadController :=
  let day := c.LastControlTime.weekday
  let dayTime := hhmm c.LastControlTime
  match lookupA c.ActivityDuration day with
  | none => ([], c)
  | some ad => caLoop day dayTime ad rp c rp

/-- Append one matched process to an activity's result list, as the Go
body does (`results[name] = append(r, rp)` after creating a missing
entry). -/
def addMatch (results : List (String × List runningProcess)) (name : String)
    (pr : runningProcess) : List (String × List runningProcess) :=
  insertA results name ((lookupA results name).getD [] ++ [pr])

/-- The `for _, rp := range processes` loop of
`getRunningProcessesPerActivity` for one compiled pattern.  `re = none`
models the nil `*Regexp` left by a failed `regexp.Compile`: the first
`MatchString` call on it dereferences nil and panics (`none` result). -/
def procLoop (re : Option (String → Bool)) (name : String) :
    List runningProcess → List (String × List runningProcess) →
    Option (List (String × List runningProcess))
  | [], results => some results
  | pr :: rest, results =>
      match re with
      | none => none
      | some f =>
          procLoop re name rest (if f pr.Path then addMatch results name pr else results)

/-- The `for _, processPattern := range activity.ProcessPatterns` loop:
compile each pattern (error discarded) and scan all processes with it. -/
def patLoop (compile : String → Option (String → Bool)) (name : String)
    (procs : List runningProcess) :
    List String → List (String × List runningProcess) →
    Option (List (String × List runningProcess))
  | [], results => some results
  | p :: ps, results =>
      match procLoop (compile p) name procs results with
      | none => none
      | some results1 => patLoop compile name procs ps results1

/-- The `for _, activity := range c.Activities` loop. -/
def actLoop (compile : String → Option (String → Bool))
    (procs : List runningProcess) :
    List activityRule → List (String × List runningProcess) →
    Option (List (String × List runningProcess))
  | [], results => some results
  | a :: rest, results =>
      match patLoop compile a.Name procs a.ProcessPatterns results with
      | none => none
      | some results1 => actLoop compile procs rest results1

/-- Go `(c *dadController) getRunningProcessesPerActivity`, parameterised
by the `regexp.Compile` oracle: classify the observed processes into
activities.  `none` models a panic (nil-regexp dereference). -/
def getRunningProcessesPerActivity (compile : String → Option (String → Bool))
    (c : dadController) (processes : List runningProcess) :
    Option (List (String × List runningProcess)) :=
  actLoop compile processes c.Activities []

/-- The match verdict of one pattern on one path under the compile oracle
(`false` for a pattern that does not compile). -/
def matchB (compile : String → Option (String → Bool)) (p s : String) : Bool :=
  match compile p with
  | none => false
  | some f => f s

/-- The processes one rule's pattern list matches, in pattern-major,
process-minor order (the order classification appends them). -/
def matchedProcs (compile : String → Option (String → Bool))
    (pats : List String) (procs : List runningProcess) : List runningProcess :=
  pats.flatMap fun p => procs.filter fun pr => matchB compile p pr.Path

/-- Everything classification accumulates under one activity name: the
in-order contributions of every rule bearing that name. -/
def contrib (compile : String → Option (String → Bool))
    (rules : List activityRule) (procs : List runningProcess) (n : String) :
    List runningProcess :=
  (rules.filter fun a => a.Name = n).flatMap
    fun a => matchedProcs compile a.ProcessPatterns procs

/-- Net effect on the result map of appending a batch of matches for one
activity (no entry is touched when the batch is empty). -/
def addList (results : List (String × List runningProcess)) (name : String)
    (l : List runningProcess) : List (String × List runningProcess) :=
  if l = [] then results
  else insertA results name ((lookupA results name).getD [] ++ l)

/-! ## Concrete sample data, used for evaluating the embedding -/

/-- Sample process, as in the repository's tests. -/
def pGTA : runningProcess := ⟨1, "C:\\GTA.exe"⟩

/-- Sample process with no configured rule. -/
def pSteam : runningProcess := ⟨2, "C:\\Steam.exe"⟩

/-- Monday schedule: window 20:00–21:00, max duration 900 (seconds). -/
def schedMon : schedule := ⟨[⟨2000, 2100⟩], 900⟩

/-- Rule for the sample GTA activity, scheduled on Monday only. -/
def ruleGTA : activityRule := ⟨"GTA", ["GTA.exe"], [(Weekday.monday, schedMon)]⟩

/-- Monday 2024-01-01, 20:30. -/
def tMon : GoTime := ⟨2024, 1, 1, 20, 30, Weekday.monday⟩

/-- Monday 2024-01-08, 20:30 (same weekday, different calendar date). -/
def tMonNext : GoTime := ⟨2024, 1, 8, 20, 30, Weekday.monday⟩

/-- Monday 2024-01-01, 18:00 (outside the sample window). -/
def tMonEarly : GoTime := ⟨2024, 1, 1, 18, 0, Weekday.monday⟩

/-- Controller with the GTA rule, 840 accumulated on Monday, in-window. -/
def cSample : dadController := ⟨60, [ruleGTA], tMon, [(Weekday.monday, [("GTA", 840)])]⟩

/-- Controller with 960 accumulated on Monday (above the 900 cap). -/
def cOver : dadController := ⟨60, [ruleGTA], tMon, [(Weekday.monday, [("GTA", 960)])]⟩

/-- Controller observed at 18:00, outside the sample window. -/
def cEarly : dadController := ⟨60, [ruleGTA], tMonEarly, [(Weekday.monday, [("GTA", 840)])]⟩

/-- Classified map with the GTA process under the GTA activity. -/
def rpSample : List (String × List runningProcess) := [("GTA", [pGTA])]

/-- Classified map naming an activity with no configured rule. -/
def rpUnknown : List (String × List runningProcess) := [("Steam", [pSteam])]

/-- Rule with two patterns, for the duplicate-classification check. -/
def ruleAB : activityRule := ⟨"AB", ["a", "b"], []⟩

/-- Controller holding only `ruleAB`. -/
def cAB : dadController := ⟨60, [ruleAB], tMon, []⟩

/-- Controller whose single rule carries the malformed pattern "[". -/
def cBadPattern : dadController := ⟨60, [⟨"GTA", ["["], []⟩], tMon, []⟩

/-- Compile oracle under which every pattern compiles and matches every
path. -/
def compileAll : String → Option (String → Bool) := fun _ => some fun _ => true

/-- Compile oracle reflecting that `regexp.Compile "["` fails (unclosed
character class); every other pattern matches exactly its own text. -/
def compileBad : String → Option (String → Bool) :=
  fun p => if p = "[" then none else some fun s => decide (p = s)

/-! ## Association-map lemmas -/

section AssocMapLemmas

variable {K V : Type} [DecidableEq K]

theorem lookupA_insertA (m : List (K × V)) (k : K) (v : V) (k' : K) :
    lookupA (insertA m k v) k' = if k' = k then some v else lookupA m k' := by
  induction m with
  | nil => simp [insertA, lookupA]
  | cons e rest ih =>
      obtain ⟨k0, v0⟩ := e
      by_cases hk : k = k0
      · subst hk
        by_cases h' : k' = k <;> simp [insertA, lookupA, h']
      · by_cases h' : k' = k0
        · subst h'
          simp [insertA, lookupA, hk, Ne.symm hk]
        · simp [insertA, lookupA, hk, h', ih]

theorem lookupA_eraseA (m : List (K × V)) (k k' : K) :
    lookupA (eraseA m k) k' = if k' = k then none else lookupA m k' := by
  induction m with
  | nil => simp [eraseA, lookupA]
  | cons e rest ih =>
      obtain ⟨k0, v0⟩ := e
      by_cases hk : k0 = k
      · subst hk
        by_cases h' : k' = k0
        · subst h'
          simp [eraseA, lookupA, ih]
        · simp [eraseA, lookupA, h', ih]
      · have hk' : k ≠ k0 := fun h => hk h.symm
        by_cases h' : k' = k0
        · subst h'
          simp [eraseA, lookupA, hk, hk', ih]
        · simp [eraseA, lookupA, hk, h', ih]

theorem insertA_insertA (m : List (K × V)) (k : K) (v w : V) :
    insertA (insertA m k v) k w = insertA m k w := by
  induction m with
  | nil => simp [insertA]
  | cons e rest ih =>
      obtain ⟨k0, v0⟩ := e
      by_cases hk : k = k0 <;> simp [insertA, hk, ih]

theorem mem_of_lookupA {m : List (K × V)} {k : K} {v : V}
    (h : lookupA m k = some v) : (k, v) ∈ m := by
  induction m with
  | nil => simp [lookupA] at h
  | cons e rest ih =>
      obtain ⟨k0, v0⟩ := e
      by_cases hk : k = k0
      · subst hk
        simp [lookupA] at h
        simp [h]
      · simp [lookupA, hk] at h
        exact List.mem_cons_of_mem _ (ih h)

theorem lookupA_eq_some_of_mem {m : List (K × V)} {k : K} {v : V}
    (hnd : (m.map Prod.fst).Nodup) (h : (k, v) ∈ m) : lookupA m k = some v := by
  induction m with
  | nil => simp at h
  | cons e rest ih =>
      obtain ⟨k0, v0⟩ := e
      simp only [List.map_cons, List.nodup_cons] at hnd
      rcases List.mem_cons.mp h with h1 | h1
      · rw [Prod.mk.injEq] at h1
        obtain ⟨rfl, rfl⟩ := h1
        simp [lookupA]
      · have hk : k ≠ k0 := by
          rintro rfl
          exact hnd.1 (List.mem_map.mpr ⟨(k, v), h1, rfl⟩)
        simp [lookupA, hk, ih hnd.2 h1]

theorem lookupA_eq_none_iff {m : List (K × V)} {k : K} :
    lookupA m k = none ↔ k ∉ m.map Prod.fst := by
  induction m with
  | nil => simp [lookupA]
  | cons e rest ih =>
      obtain ⟨k0, v0⟩ := e
      by_cases hk : k = k0 <;> simp [lookupA, hk, ih]

theorem lookupA_isSome_of_mem_keys {m : List (K × V)} {k : K}
    (h : k ∈ m.map Prod.fst) : (lookupA m k).isSome = true := by
  rcases ho : lookupA m k with _ | v
  · exact absurd (lookupA_eq_none_iff.mp ho) (not_not.mpr h)
  · rfl

theorem mem_keys_of_lookupA {m : List (K × V)} {k : K} {v : V}
    (h : lookupA m k = some v) : k ∈ m.map Prod.fst :=
  List.mem_map.mpr ⟨(k, v), mem_of_lookupA h, rfl⟩

end AssocMapLemmas

/-! ## Counter-update lemmas -/

theorem lookupA_bumpCounters (interval : Int) (names : List String)
    (ad : List (String × Int)) (hnd : names.Nodup) (n : String) :
    lookupA (bumpCounters interval names ad) n =
      if n ∈ names then some ((lookupA ad n).getD 0 + interval)
      else lookupA ad n := by
  induction names generalizing ad with
  | nil => simp [bumpCounters]
  | cons m rest ih =>
      simp only [List.nodup_cons] at hnd
      by_cases hn : n = m
      · subst hn
        simp [bumpCounters, ih _ hnd.2, hnd.1, lookupA_insertA]
      · by_cases hr : n ∈ rest <;>
          simp [bumpCounters, ih _ hnd.2, hr, hn, lookupA_insertA]

theorem updateActivityCounters_LastControlTime (c : dadController)
    (rp : List (String × List runningProcess)) (now : GoTime) :
    (updateActivityCounters c rp now).LastControlTime = now := by
  unfold updateActivityCounters
  by_cases h : rp.isEmpty <;> simp [h]

theorem updateActivityCounters_AD_other (c : dadController)
    (rp : List (String × List runningProcess)) (now : GoTime)
    (w : Weekday) (hw : w ≠ now.weekday) :
    lookupA (updateActivityCounters c rp now).ActivityDuration w =
      lookupA c.ActivityDuration w := by
  unfold updateActivityCounters
  by_cases hD : dateChanged now c.LastControlTime <;>
    by_cases hE : rp.isEmpty <;>
      simp [hD, hE, lookupA_insertA, lookupA_eraseA, hw]

theorem updateActivityCounters_AD_empty (c : dadController) (now : GoTime) :
    (updateActivityCounters c [] now).ActivityDuration =
      if dateChanged now c.LastControlTime then
        eraseA c.ActivityDuration now.weekday
      else c.ActivityDuration := by
  unfold updateActivityCounters
  by_cases hD : dateChanged now c.LastControlTime <;> simp [hD]

theorem updateActivityCounters_AD_now (c : dadController)
    (rp : List (String × List runningProcess)) (now : GoTime) (h : rp ≠ []) :
    lookupA (updateActivityCounters c rp now).ActivityDuration now.weekday =
      some (bumpCounters c.SamplingInterval (rp.map Prod.fst)
        ((if dateChanged now c.LastControlTime then none
          else lookupA c.ActivityDuration now.weekday).getD [])) := by
  have hE : rp.isEmpty = false := by
    cases rp with
    | nil => exact absurd rfl h
    | cons e t => rfl
  unfold updateActivityCounters
  by_cases hD : dateChanged now c.LastControlTime <;>
    simp [hD, hE, lookupA_insertA, lookupA_eraseA]

theorem GetActivityDuration_eq (c : dadController) (name : String) :
    GetActivityDuration c name =
      (lookupA ((lookupA c.ActivityDuration c.LastControlTime.weekday).getD [])
        name).getD 0 := by
  unfold GetActivityDuration
  rcases lookupA c.ActivityDuration c.LastControlTime.weekday with _ | ad
  · simp [lookupA]
  · simp only [Option.getD_some]
    rcases lookupA ad name with _ | d <;> simp

theorem GetActivityDuration_update (c : dadController)
    (rp : List (String × List runningProcess)) (now : GoTime)
    (hnd : (rp.map Prod.fst).Nodup) (h : rp ≠ []) (name : String) :
    GetActivityDuration (updateActivityCounters c rp now) name =
      (if name ∈ rp.map Prod.fst then
        (if dateChanged now c.LastControlTime then 0
         else (lookupA ((lookupA c.ActivityDuration now.weekday).getD []) name).getD 0)
        + c.SamplingInterval
       else
        (if dateChanged now c.LastControlTime then 0
         else (lookupA ((lookupA c.ActivityDuration now.weekday).getD []) name).getD 0)) := by
  rw [GetActivityDuration_eq, updateActivityCounters_LastControlTime,
    updateActivityCounters_AD_now c rp now h]
  rw [Option.getD_some, lookupA_bumpCounters _ _ _ hnd]
  by_cases hD : dateChanged now c.LastControlTime <;>
    by_cases hm : name ∈ rp.map Prod.fst <;>
      simp [hD, hm, lookupA]

/-! ## Rule-lookup and control-loop lemmas -/

theorem findRule_append (xs ys : List activityRule) (n : String) :
    findRule (xs ++ ys) n =
      match findRule xs n with
      | some a => some a
      | none => findRule ys n := by
  induction xs with
  | nil => simp [findRule]
  | cons a rest ih =>
      by_cases h : a.Name = n <;> simp [findRule, h, ih]

theorem getOrCreateActivityRule_fst (c : dadController) (n : String) :
    (getOrCreateActivityRule c n).1 = ruleFor c n := by
  unfold getOrCreateActivityRule ruleFor
  rcases findRule c.Activities n with _ | a <;> simp

theorem ruleFor_getOrCreate_other (c : dadController) (n n' : String)
    (h : n' ≠ n) :
    ruleFor (getOrCreateActivityRule c n).2 n' = ruleFor c n' := by
  unfold getOrCreateActivityRule
  rcases hf : findRule c.Activities n with _ | a
  · have h1 : findRule [emptyRule n] n' = none := by
      simp [findRule, emptyRule, Ne.symm h]
    unfold ruleFor
    simp only [findRule_append, h1]
    rcases findRule c.Activities n' with _ | b <;> simp
  · simp

/-- Closed form of the `controlActivities` loop: one optional kill per
classified activity, decided by `evalOne` on the rule the ORIGINAL
controller resolves for that name (rule auto-creation along the way does
not disturb later activities, given distinct keys). -/
theorem caLoop_fst (day : Weekday) (dayTime : Int) (ad : List (String × Int))
    (rp0 : List (String × List runningProcess)) :
    ∀ (entries : List (String × List runningProcess)) (c : dadController),
    (entries.map Prod.fst).Nodup →
    (caLoop day dayTime ad rp0 c entries).1 =
      entries.filterMap (fun e =>
        (evalOne ad day dayTime (ruleFor c e.1) e.1).map
          (fun r => Kill.mk e.1 ((lookupA rp0 e.1).getD []) r)) := by
  intro entries
  induction entries with
  | nil => intro c _; simp [caLoop]
  | cons e rest ih =>
      intro c hnd
      obtain ⟨name, v⟩ := e
      simp only [List.map_cons, List.nodup_cons] at hnd
      have hr : ∀ e' ∈ rest,
          ruleFor (getOrCreateActivityRule c name).2 e'.1 = ruleFor c e'.1 := by
        intro e' he'
        refine ruleFor_getOrCreate_other _ _ _ ?_
        intro hcontra
        exact hnd.1 (hcontra ▸ List.mem_map.mpr ⟨e', he', rfl⟩)
      have hrec := ih (getOrCreateActivityRule c name).2 hnd.2
      have hcong : rest.filterMap (fun e' =>
            (evalOne ad day dayTime (ruleFor (getOrCreateActivityRule c name).2 e'.1) e'.1).map
              (fun r => Kill.mk e'.1 ((lookupA rp0 e'.1).getD []) r)) =
          rest.filterMap (fun e' =>
            (evalOne ad day dayTime (ruleFor c e'.1) e'.1).map
              (fun r => Kill.mk e'.1 ((lookupA rp0 e'.1).getD []) r)) := by
        refine List.filterMap_congr ?_
        intro e' he'
        rw [hr e' he']
      rw [caLoop]
      rcases hE : evalOne ad day dayTime (getOrCreateActivityRule c name).1 name with _ | r <;>
        rw [getOrCreateActivityRule_fst] at hE <;>
          simp [hE, List.filterMap_cons, hrec, hcong]

/-- No classified activity named `name` means no kill named `name` in the
closed form. -/
theorem killsFor_eq_nil (day : Weekday) (dayTime : Int) (ad : List (String × Int))
    (rp0 : List (String × List runningProcess)) (c : dadController) (name : String) :
    ∀ (entries : List (String × List runningProcess)),
    name ∉ entries.map Prod.fst →
    (entries.filterMap (fun e =>
        (evalOne ad day dayTime (ruleFor c e.1) e.1).map
          (fun r => Kill.mk e.1 ((lookupA rp0 e.1).getD []) r))).filter
      (fun k => decide (k.activity = name)) = [] := by
  intro entries
  induction entries with
  | nil => intro _; simp
  | cons e rest ih =>
      intro h
      simp only [List.map_cons, List.mem_cons, not_or] at h
      rcases hE : evalOne ad day dayTime (ruleFor c e.1) e.1 with _ | r <;>
        simp [List.filterMap_cons, hE, List.filter, Ne.symm h.1, ih h.2]

/-- At most one kill per activity name in the closed form, given distinct
classified keys. -/
theorem killsFor_length_le_one (day : Weekday) (dayTime : Int)
    (ad : List (String × Int)) (rp0 : List (String × List runningProcess))
    (c : dadController) (name : String) :
    ∀ (entries : List (String × List runningProcess)),
    (entries.map Prod.fst).Nodup →
    ((entries.filterMap (fun e =>
        (evalOne ad day dayTime (ruleFor c e.1) e.1).map
          (fun r => Kill.mk e.1 ((lookupA rp0 e.1).getD []) r))).filter
      (fun k => decide (k.activity = name))).length ≤ 1 := by
  intro entries
  induction entries with
  | nil => intro _; simp
  | cons e rest ih =>
      intro hnd
      simp only [List.map_cons, List.nodup_cons] at hnd
      rcases hE : evalOne ad day dayTime (ruleFor c e.1) e.1 with _ | r
      · simp only [List.filterMap_cons, hE]
        exact ih hnd.2
      · by_cases hn : e.1 = name
        · subst hn
          have h0 := killsFor_eq_nil day dayTime ad rp0 c e.1 rest hnd.1
          simp [List.filterMap_cons, hE, List.filter, h0]
        · simp only [List.filterMap_cons, hE, List.filter, Option.map_some]
          simp [List.filter, hn]
          exact ih hnd.2

theorem controlActivities_fst (c : dadController)
    (rp : List (String × List runningProcess)) (ad : List (String × Int))
    (hnd : (rp.map Prod.fst).Nodup)
    (had : lookupA c.ActivityDuration c.LastControlTime.weekday = some ad) :
    (controlActivities c rp).1 =
      rp.filterMap (fun e =>
        (evalOne ad c.LastControlTime.weekday (hhmm c.LastControlTime)
          (ruleFor c e.1) e.1).map
          (fun r => Kill.mk e.1 ((lookupA rp e.1).getD []) r)) := by
  unfold controlActivities
  simp only [had]
  exact caLoop_fst _ _ _ _ rp c hnd

/-! ## Classification lemmas -/

theorem lookupA_addList_self (results : List (String × List runningProcess))
    (name : String) (l : List runningProcess) :
    lookupA (addList results name l) name =
      if l = [] then lookupA results name
      else some ((lookupA results name).getD [] ++ l) := by
  by_cases h : l = [] <;> simp [addList, h, lookupA_insertA]

theorem lookupA_addList_other (results : List (String × List runningProcess))
    (name : String) (l : List runningProcess) (n : String) (h : n ≠ name) :
    lookupA (addList results name l) n = lookupA results n := by
  by_cases hl : l = [] <;> simp [addList, hl, lookupA_insertA, h]

theorem addList_addList (results : List (String × List runningProcess))
    (name : String) (l1 l2 : List runningProcess) :
    addList (addList results name l1) name l2 = addList results name (l1 ++ l2) := by
  by_cases h1 : l1 = []
  · subst h1; simp [addList]
  · by_cases h2 : l2 = []
    · subst h2; simp [addList, h1]
    · have h12 : l1 ++ l2 ≠ [] := by simp [h1]
      simp [addList, h1, h2, h12, lookupA_insertA, insertA_insertA, List.append_assoc]

theorem addMatch_eq_addList (results : List (String × List runningProcess))
    (name : String) (pr : runningProcess) :
    addMatch results name pr = addList results name [pr] := by
  simp [addMatch, addList]

theorem procLoop_some (f : String → Bool) (name : String) :
    ∀ (procs : List runningProcess) (results : List (String × List runningProcess)),
    procLoop (some f) name procs results =
      some (addList results name (procs.filter fun pr => f pr.Path)) := by
  intro procs
  induction procs with
  | nil => intro results; simp [procLoop, addList]
  | cons pr rest ih =>
      intro results
      by_cases h : f pr.Path
      · simp only [procLoop, h, if_pos, List.filter_cons, ih, addMatch_eq_addList]
        rw [addList_addList]
        simp [h]
      · simp only [procLoop, List.filter_cons, ih]
        simp [h]

theorem patLoop_some (compile : String → Option (String → Bool)) (name : String)
    (procs : List runningProcess) :
    ∀ (pats : List String) (results : List (String × List runningProcess)),
    (∀ p ∈ pats, (compile p).isSome) →
    patLoop compile name procs pats results =
      some (addList results name (matchedProcs compile pats procs)) := by
  intro pats
  induction pats with
  | nil => intro results _; simp [patLoop, matchedProcs, addList]
  | cons p ps ih =>
      intro results hall
      obtain ⟨f, hf⟩ : ∃ f, compile p = some f := by
        have := hall p (List.mem_cons_self p ps)
        rcases hc : compile p with _ | f
        · rw [hc] at this; simp at this
        · exact ⟨f, rfl⟩
      have hfilter : (procs.filter fun pr => f pr.Path) =
          procs.filter fun pr => matchB compile p pr.Path := by
        refine List.filter_congr ?_
        intro pr _
        simp [matchB, hf]
      rw [patLoop, hf, procLoop_some, hfilter]
      show patLoop compile name procs ps
          (addList results name (procs.filter fun pr => matchB compile p pr.Path)) =
        some (addList results name (matchedProcs compile (p :: ps) procs))
      rw [ih _ (fun q hq => hall q (List.mem_cons_of_mem _ hq)), addList_addList]
      simp only [matchedProcs, List.flatMap_cons]

theorem actLoop_lookup (compile : String → Option (String → Bool))
    (procs : List runningProcess) :
    ∀ (rules : List activityRule) (results0 : List (String × List runningProcess)),
    (∀ a ∈ rules, ∀ p ∈ a.ProcessPatterns, (compile p).isSome) →
    ∃ res, actLoop compile procs rules results0 = some res ∧
      ∀ n, lookupA res n =
        if contrib compile rules procs n = [] then lookupA results0 n
        else some ((lookupA results0 n).getD [] ++ contrib compile rules procs n) := by
  intro rules
  induction rules with
  | nil =>
      intro results0 _
      refine ⟨results0, rfl, ?_⟩
      intro n
      simp [contrib]
  | cons a rest ih =>
      intro results0 hall
      have hpat := patLoop_some compile a.Name procs a.ProcessPatterns results0
        (hall a (List.mem_cons_self a rest))
      obtain ⟨res, hres, hlook⟩ := ih (addList results0 a.Name (matchedProcs compile a.ProcessPatterns procs))
        (fun b hb => hall b (List.mem_cons_of_mem _ hb))
      refine ⟨res, ?_, ?_⟩
      · rw [actLoop, hpat]
        exact hres
      · intro n
        have hcontrib : contrib compile (a :: rest) procs n =
            (if a.Name = n then matchedProcs compile a.ProcessPatterns procs else []) ++
              contrib compile rest procs n := by
          by_cases hn : a.Name = n <;> simp [contrib, List.filter_cons, hn]
        rw [hlook n, hcontrib]
        by_cases hn : a.Name = n
        · subst hn
          rw [lookupA_addList_self]
          by_cases hm : matchedProcs compile a.ProcessPatterns procs = [] <;>
            by_cases hc : contrib compile rest procs a.Name = [] <;>
              simp [hm, hc, List.append_assoc]
        · have hne : n ≠ a.Name := Ne.symm hn
          rw [lookupA_addList_other _ _ _ _ hne]
          simp [hn]

theorem classify_lookup (compile : String → Option (String → Bool))
    (c : dadController) (procs : List runningProcess)
    (hall : ∀ a ∈ c.Activities, ∀ p ∈ a.ProcessPatterns, (compile p).isSome) :
    ∃ res, getRunningProcessesPerActivity compile c procs = some res ∧
      ∀ n, lookupA res n =
        if contrib compile c.Activities procs n = [] then none
        else some (contrib compile c.Activities procs n) := by
  obtain ⟨res, hres, hlook⟩ := actLoop_lookup compile procs c.Activities [] hall
  refine ⟨res, hres, ?_⟩
  intro n
  have := hlook n
  simpa [lookupA] using this

theorem one_le_count_of_mem {β : Type} [DecidableEq β] {x : β} :
    ∀ {l : List β}, x ∈ l → 1 ≤ l.count x := by
  intro l
  induction l with
  | nil => intro h; simp at h
  | cons b rest ih =>
      intro h
      rcases List.mem_cons.mp h with h1 | h1
      · subst h1; simp [List.count_cons]
      · have := ih h1
        simp only [List.count_cons]
        omega

theorem count_le_flatMap {α β : Type} [DecidableEq β] (f : α → List β)
    (a : α) (x : β) :
    ∀ (l : List α), a ∈ l → (f a).count x ≤ (l.flatMap f).count x := by
  intro l
  induction l with
  | nil => intro h; simp at h
  | cons b rest ih =>
      intro h
      rw [List.flatMap_cons, List.count_append]
      rcases List.mem_cons.mp h with h1 | h1
      · subst h1; exact Nat.le_add_right _ _
      · exact (ih h1).trans (Nat.le_add_left _ _)

theorem length_filter_le_count_matched (compile : String → Option (String → Bool))
    (procs : List runningProcess) (pr : runningProcess) (hpr : pr ∈ procs) :
    ∀ (pats : List String),
    (pats.filter fun p => matchB compile p pr.Path).length ≤
      (matchedProcs compile pats procs).count pr := by
  intro pats
  induction pats with
  | nil => simp [matchedProcs]
  | cons p ps ih =>
      rw [matchedProcs, List.flatMap_cons, List.count_append, List.filter_cons]
      by_cases h : matchB compile p pr.Path
      · have h1 : 1 ≤ (procs.filter fun q => matchB compile p q.Path).count pr :=
          one_le_count_of_mem (List.mem_filter.mpr ⟨hpr, by simp [h]⟩)
        have h2 := ih
        rw [matchedProcs] at h2
        simp only [h, if_pos, List.length_cons]
        omega
      · have h2 := ih
        rw [matchedProcs] at h2
        simp only [h]
        simpa using h2.trans (Nat.le_add_left _ _)

/-! ## Claim theorems -/

/-- Claim C10: `GetActivityDuration` returns the zero duration when the
`DurationCounters` bucket for `LastControlTime.Weekday()` does not exist,
or when that bucket has no entry for the given activity name; otherwise it
returns exactly the stored accumulated duration.  It never fails (total
function) and never mutates the state (the embedding is a pure reader of
`c`, matching the Go method, which only performs map reads). -/
theorem GetActivityDuration_spec (c : dadController) (name : String) :
    (lookupA c.ActivityDuration c.LastControlTime.weekday = none →
      GetActivityDuration c name = 0) ∧
    (∀ ad, lookupA c.ActivityDuration c.LastControlTime.weekday = some ad →
      (lookupA ad name = none → GetActivityDuration c name = 0) ∧
      (∀ d, lookupA ad name = some d → GetActivityDuration c name = d)) := by
  refine ⟨?_, ?_⟩
  · intro h
    simp [GetActivityDuration, h]
  · intro ad had
    refine ⟨?_, ?_⟩
    · intro h
      simp [GetActivityDuration, had, h]
    · intro d h
      simp [GetActivityDuration, had, h]

/-- Witness for C10 at a concrete state. -/
theorem GetActivityDuration_spec_witness :
    lookupA cSample.ActivityDuration cSample.LastControlTime.weekday =
      some [("GTA", 840)] ∧
    GetActivityDuration cSample "GTA" = 840 :=
  ⟨by decide, ((GetActivityDuration_spec cSample "GTA").2 [("GTA", 840)] (by decide)).2 840 (by decide)⟩

/-- Claim C9: after `updateActivityCounters` ran on a non-empty classified
map, the `ActivityDuration` bucket for the new `LastControlTime.Weekday()`
exists (it was created on demand), so `controlActivities` on that state
does not take its missing-bucket early return: it proceeds into the
per-activity evaluation loop. -/
theorem bucket_present_after_update (c : dadController)
    (rp : List (String × List runningProcess)) (now : GoTime) (h : rp ≠ []) :
    ∃ ad, lookupA (updateActivityCounters c rp now).ActivityDuration
        ((updateActivityCounters c rp now).LastControlTime.weekday) = some ad ∧
      controlActivities (updateActivityCounters c rp now) rp =
        caLoop ((updateActivityCounters c rp now).LastControlTime.weekday)
          (hhmm (updateActivityCounters c rp now).LastControlTime) ad rp
          (updateActivityCounters c rp now) rp := by
  have hL := updateActivityCounters_LastControlTime c rp now
  have hAD := updateActivityCounters_AD_now c rp now h
  refine ⟨bumpCounters c.SamplingInterval (rp.map Prod.fst)
      ((if dateChanged now c.LastControlTime then none
        else lookupA c.ActivityDuration now.weekday).getD []), ?_, ?_⟩
  · rw [hL]
    exact hAD
  · simp only [controlActivities, hL, hAD]

/-- Witness for C9 at a concrete scan. -/
theorem bucket_present_after_update_witness :
    rpSample ≠ [] ∧
    (lookupA (updateActivityCounters cSample rpSample tMon).ActivityDuration
      ((updateActivityCounters cSample rpSample tMon).LastControlTime.weekday)).isSome
      = true := by
  refine ⟨by decide, ?_⟩
  obtain ⟨ad, h1, h2⟩ := bucket_present_after_update cSample rpSample tMon (by decide)
  rw [h1]
  rfl

/-- Claim C3 counterexample: a call of `updateActivityCounters` with an
EMPTY classified map that nevertheless changes a counter.  With the same
weekday one calendar week later, the rollover branch fires and deletes
the `now`-weekday bucket, dropping GTA's accumulated 840 to 0 — so
"for every call with an empty classified map … no counter changes" is
false as stated. -/
theorem update_empty_map_changes_counter :
    GetActivityDuration cSample "GTA" = 840 ∧
    GetActivityDuration (updateActivityCounters cSample [] tMonNext) "GTA" = 0 :=
  ⟨by decide, by decide⟩

/-- Claim C3 (amended): on a non-empty classified map every key's
current-weekday counter ends exactly one sampling interval above its
post-rollover value (its pre-call value when the calendar date is
unchanged, zero after a rollover), regardless of how many processes the
key lists; on an empty classified map no weekday bucket is created and no
counter changes APART from the day-rollover deletion of the `now`-weekday
bucket when the calendar date changed. -/
theorem update_increments_per_key (c : dadController)
    (rp : List (String × List runningProcess)) (now : GoTime)
    (hnd : (rp.map Prod.fst).Nodup) :
    (rp ≠ [] → ∀ name ∈ rp.map Prod.fst,
      GetActivityDuration (updateActivityCounters c rp now) name =
        (if dateChanged now c.LastControlTime then 0
         else (lookupA ((lookupA c.ActivityDuration now.weekday).getD []) name).getD 0)
        + c.SamplingInterval) ∧
    (rp = [] → (updateActivityCounters c rp now).ActivityDuration =
      if dateChanged now c.LastControlTime then eraseA c.ActivityDuration now.weekday
      else c.ActivityDuration) := by
  refine ⟨?_, ?_⟩
  · intro h name hm
    rw [GetActivityDuration_update c rp now hnd h name, if_pos hm]
  · intro h
    subst h
    exact updateActivityCounters_AD_empty c now

/-- Witness for the amended C3: same-date scan, 840 + 60 = 900. -/
theorem update_increments_per_key_witness :
    (rpSample.map Prod.fst).Nodup ∧ rpSample ≠ [] ∧
    "GTA" ∈ rpSample.map Prod.fst ∧
    GetActivityDuration (updateActivityCounters cSample rpSample tMon) "GTA" = 900 := by
  refine ⟨by decide, by decide, by decide, ?_⟩
  rw [(update_increments_per_key cSample rpSample tMon (by decide)).1 (by decide) "GTA"
    (by decide)]
  decide

/-- Claim C4: when `now`'s calendar date differs from `LastControlTime`'s,
exactly the `ActivityDuration` bucket keyed by `now.Weekday()` is
discarded before any increment — every other weekday bucket is unchanged —
so the new weekday's accumulated durations restart from zero (one sampling
interval for each classified key, zero for every other name); and
`LastControlTime` is set to `now` unconditionally. -/
theorem rollover_discards_now_weekday (c : dadController)
    (rp : List (String × List runningProcess)) (now : GoTime)
    (hnd : (rp.map Prod.fst).Nodup) :
    ((updateActivityCounters c rp now).LastControlTime = now) ∧
    (dateChanged now c.LastControlTime = true →
      (∀ w, w ≠ now.weekday →
        lookupA (updateActivityCounters c rp now).ActivityDuration w =
          lookupA c.ActivityDuration w) ∧
      (∀ name, GetActivityDuration (updateActivityCounters c rp now) name =
        if name ∈ rp.map Prod.fst then c.SamplingInterval else 0)) := by
  refine ⟨updateActivityCounters_LastControlTime c rp now, ?_⟩
  intro hD
  refine ⟨fun w hw => updateActivityCounters_AD_other c rp now w hw, ?_⟩
  intro name
  by_cases h : rp = []
  · subst h
    rw [GetActivityDuration_eq, updateActivityCounters_LastControlTime,
      updateActivityCounters_AD_empty]
    simp [hD, lookupA_eraseA, lookupA]
  · rw [GetActivityDuration_update c rp now hnd h name]
    simp only [hD, if_true]
    by_cases hm : name ∈ rp.map Prod.fst <;> simp [hm]

/-- Witness for C4: date change, counter restarts at one interval. -/
theorem rollover_discards_now_weekday_witness :
    (rpSample.map Prod.fst).Nodup ∧
    dateChanged tMonNext cSample.LastControlTime = true ∧
    GetActivityDuration (updateActivityCounters cSample rpSample tMonNext) "GTA" = 60 := by
  refine ⟨by decide, by decide, ?_⟩
  rw [((rollover_discards_now_weekday cSample rpSample tMonNext (by decide)).2
    (by decide)).2 "GTA"]
  decide

/-- Claim C1: per scan, `controlActivities` evaluates each classified
activity with the short-circuiting checks in source order — day-validity
(`AllowedSchedules` lookup), then duration, then time-window, exactly the
nested structure of `evalOne` — and its kill list is one optional entry
per classified key: each kill carries the activity name, the FULL list of
processes classified to it this scan (`rp[activity]`), and the single
reason of the first violated check; so at most one kill with exactly one
reason per activity, even when several violations hold simultaneously. -/
theorem controlActivities_one_kill_per_activity (c : dadController)
    (rp : List (String × List runningProcess)) (ad : List (String × Int))
    (hnd : (rp.map Prod.fst).Nodup)
    (had : lookupA c.ActivityDuration c.LastControlTime.weekday = some ad) :
    (controlActivities c rp).1 =
      rp.filterMap (fun e =>
        (evalOne ad c.LastControlTime.weekday (hhmm c.LastControlTime)
          (ruleFor c e.1) e.1).map
          (fun r => Kill.mk e.1 ((lookupA rp e.1).getD []) r)) ∧
    (∀ name, (((controlActivities c rp).1).filter
        (fun k => decide (k.activity = name))).length ≤ 1) := by
  have h := controlActivities_fst c rp ad hnd had
  refine ⟨h, ?_⟩
  intro name
  rw [h]
  exact killsFor_length_le_one c.LastControlTime.weekday (hhmm c.LastControlTime)
    ad rp c name rp hnd

/-- Witness for C1: in-window, under-cap concrete scan — no kill at all. -/
theorem controlActivities_one_kill_per_activity_witness :
    ((rpSample.map Prod.fst).Nodup ∧
      lookupA cSample.ActivityDuration cSample.LastControlTime.weekday =
        some [("GTA", 840)]) ∧
    (controlActivities cSample rpSample).1 = [] := by
  refine ⟨⟨by decide, by decide⟩, ?_⟩
  rw [(controlActivities_one_kill_per_activity cSample rpSample [("GTA", 840)]
    (by decide) (by decide)).1]
  decide

/-- Claim C2: for an activity whose rule HAS a `DaySchedule` for the
current weekday, a duration-reason kill is issued iff the accumulated
duration is STRICTLY greater than the schedule's `MaxDuration`; equality
does not kill, and the current time-of-day plays no role in this iff (the
duration check precedes — and its kill preempts — the window check). -/
theorem duration_kill_iff (c : dadController)
    (rp : List (String × List runningProcess)) (ad : List (String × Int))
    (name : String) (procs : List runningProcess) (a : activityRule)
    (sch : schedule)
    (hnd : (rp.map Prod.fst).Nodup)
    (had : lookupA c.ActivityDuration c.LastControlTime.weekday = some ad)
    (hproc : lookupA rp name = some procs)
    (hrule : findRule c.Activities name = some a)
    (hsch : lookupA a.AllowedSchedules c.LastControlTime.weekday = some sch) :
    Kill.mk name procs durReason ∈ (controlActivities c rp).1 ↔
      (lookupA ad name).getD 0 > sch.MaxDuration := by
  rw [controlActivities_fst c rp ad hnd had]
  have hrf : ruleFor c name = a := by simp [ruleFor, hrule]
  constructor
  · intro hmem
    obtain ⟨e, he, hfe⟩ := List.mem_filterMap.mp hmem
    rcases hE : evalOne ad c.LastControlTime.weekday (hhmm c.LastControlTime)
        (ruleFor c e.1) e.1 with _ | r
    · rw [hE] at hfe
      exact Option.noConfusion hfe
    · rw [hE] at hfe
      have hfe' : Kill.mk e.1 ((lookupA rp e.1).getD []) r =
          Kill.mk name procs durReason := Option.some.inj hfe
      have hae : e.1 = name := congrArg Kill.activity hfe'
      have hre : r = durReason := congrArg Kill.reason hfe'
      rw [hae, hrf] at hE
      subst hre
      simp only [evalOne, hsch] at hE
      by_cases hd : (lookupA ad name).getD 0 > sch.MaxDuration
      · exact hd
      · exfalso
        rw [if_neg hd] at hE
        by_cases hw : sch.AllowedPeriods.any (inPeriod (hhmm c.LastControlTime)) = true
        · rw [if_pos hw] at hE
          exact Option.noConfusion hE
        · rw [if_neg hw] at hE
          have hT : timeReason = durReason := Option.some.inj hE
          exact absurd hT (by decide)
  · intro hd
    refine List.mem_filterMap.mpr ⟨(name, procs), mem_of_lookupA hproc, ?_⟩
    have hev : evalOne ad c.LastControlTime.weekday (hhmm c.LastControlTime)
        (ruleFor c name) name = some durReason := by
      simp only [evalOne, hrf, hsch]
      rw [if_pos hd]
    simp [hev, hproc]

/-- Witness for C2: 960 accumulated against a 900 cap, in-window, kill. -/
theorem duration_kill_iff_witness :
    ((rpSample.map Prod.fst).Nodup ∧
      lookupA cOver.ActivityDuration cOver.LastControlTime.weekday =
        some [("GTA", 960)] ∧
      lookupA rpSample "GTA" = some [pGTA] ∧
      findRule cOver.Activities "GTA" = some ruleGTA ∧
      lookupA ruleGTA.AllowedSchedules cOver.LastControlTime.weekday = some schedMon) ∧
    Kill.mk "GTA" [pGTA] durReason ∈ (controlActivities cOver rpSample).1 := by
  refine ⟨⟨by decide, by decide, by decide, by decide, by decide⟩, ?_⟩
  exact (duration_kill_iff cOver rpSample [("GTA", 960)] "GTA" [pGTA] ruleGTA schedMon
    (by decide) (by decide) (by decide) (by decide) (by decide)).mpr (by decide)

/-- Claim C5: a time-of-day `t` is inside a `timePeriod` iff
`Begin ≤ t ∧ t < End` (half-open: `t = End` is excluded); hence a window
with `End ≤ Begin` is satisfied by no `t`; and — schedule present,
duration not above the cap — the time-window check kills exactly when `t`
is inside none of the current weekday's windows. -/
theorem window_kill_iff :
    (∀ (t : Int) (ap : timePeriod),
      inPeriod t ap = true ↔ ap.Begin ≤ t ∧ t < ap.End) ∧
    (∀ (t : Int) (ap : timePeriod), ap.End ≤ ap.Begin → inPeriod t ap = false) ∧
    (∀ (c : dadController) (rp : List (String × List runningProcess))
        (ad : List (String × Int)) (name : String) (procs : List runningProcess)
        (a : activityRule) (sch : schedule),
      (rp.map Prod.fst).Nodup →
      lookupA c.ActivityDuration c.LastControlTime.weekday = some ad →
      lookupA rp name = some procs →
      findRule c.Activities name = some a →
      lookupA a.AllowedSchedules c.LastControlTime.weekday = some sch →
      ¬((lookupA ad name).getD 0 > sch.MaxDuration) →
      (Kill.mk name procs timeReason ∈ (controlActivities c rp).1 ↔
        ∀ ap ∈ sch.AllowedPeriods, inPeriod (hhmm c.LastControlTime) ap = false)) := by
  refine ⟨?_, ?_, ?_⟩
  · intro t ap
    simp [inPeriod]
  · intro t ap h
    simp only [inPeriod]
    by_cases h1 : ap.Begin ≤ t
    · have h2 : ¬ t < ap.End := by omega
      simp [h2]
    · simp [h1]
  · intro c rp ad name procs a sch hnd had hproc hrule hsch hdur
    rw [controlActivities_fst c rp ad hnd had]
    have hrf : ruleFor c name = a := by simp [ruleFor, hrule]
    constructor
    · intro hmem
      obtain ⟨e, he, hfe⟩ := List.mem_filterMap.mp hmem
      rcases hE : evalOne ad c.LastControlTime.weekday (hhmm c.LastControlTime)
          (ruleFor c e.1) e.1 with _ | r
      · rw [hE] at hfe
        exact Option.noConfusion hfe
      · rw [hE] at hfe
        have hfe' : Kill.mk e.1 ((lookupA rp e.1).getD []) r =
            Kill.mk name procs timeReason := Option.some.inj hfe
        have hae : e.1 = name := congrArg Kill.activity hfe'
        have hre : r = timeReason := congrArg Kill.reason hfe'
        rw [hae, hrf] at hE
        subst hre
        simp only [evalOne, hsch] at hE
        rw [if_neg hdur] at hE
        by_cases hw : sch.AllowedPeriods.any (inPeriod (hhmm c.LastControlTime)) = true
        · rw [if_pos hw] at hE
          exact absurd hE (by simp)
        · intro ap hap
          by_contra hcon
          have hip : inPeriod (hhmm c.LastControlTime) ap = true := by
            revert hcon
            cases inPeriod (hhmm c.LastControlTime) ap <;> simp
          exact hw (List.any_eq_true.mpr ⟨ap, hap, hip⟩)
    · intro hall
      refine List.mem_filterMap.mpr ⟨(name, procs), mem_of_lookupA hproc, ?_⟩
      have hev : evalOne ad c.LastControlTime.weekday (hhmm c.LastControlTime)
          (ruleFor c name) name = some timeReason := by
        simp only [evalOne, hrf, hsch]
        rw [if_neg hdur]
        have hw : sch.AllowedPeriods.any (inPeriod (hhmm c.LastControlTime)) = false := by
          by_contra hcon
          have h1 : sch.AllowedPeriods.any (inPeriod (hhmm c.LastControlTime)) = true := by
            revert hcon
            cases sch.AllowedPeriods.any (inPeriod (hhmm c.LastControlTime)) <;> simp
          obtain ⟨ap, hap, hip⟩ := List.any_eq_true.mp h1
          rw [hall ap hap] at hip
          exact Bool.noConfusion hip
        rw [hw]
        simp
      simp [hev, hproc]

/-- Witness for C5: half-open boundary, inverted window, and an 18:00 scan
outside the 20:00–21:00 window that is killed with the time reason. -/
theorem window_kill_iff_witness :
    (inPeriod 2030 ⟨2000, 2100⟩ = true) ∧
    (inPeriod 1200 ⟨2100, 2000⟩ = false) ∧
    Kill.mk "GTA" [pGTA] timeReason ∈ (controlActivities cEarly rpSample).1 := by
  refine ⟨?_, ?_, ?_⟩
  · exact (window_kill_iff.1 2030 ⟨2000, 2100⟩).mpr (by decide)
  · exact window_kill_iff.2.1 1200 ⟨2100, 2000⟩ (by decide)
  · exact (window_kill_iff.2.2 cEarly rpSample [("GTA", 840)] "GTA" [pGTA] ruleGTA
      schedMon (by decide) (by decide) (by decide) (by decide) (by decide)
      (by decide)).mpr (by decide)

/-- Claim C6: an activity whose resolved rule has no `DaySchedule` entry
for the current weekday — in particular an unknown activity, for which
`getOrCreateActivityRule` materialises the empty rule with an empty
schedule map — is killed with the day-violation reason, and no other kill
(duration or time-window) is produced for it in that scan: unknown
activities are kill-by-default, with no further checks evaluated. -/
theorem day_default_kill (c : dadController)
    (rp : List (String × List runningProcess)) (ad : List (String × Int))
    (name : String) (procs : List runningProcess)
    (hnd : (rp.map Prod.fst).Nodup)
    (had : lookupA c.ActivityDuration c.LastControlTime.weekday = some ad)
    (hproc : lookupA rp name = some procs)
    (hsch : lookupA (ruleFor c name).AllowedSchedules c.LastControlTime.weekday = none) :
    Kill.mk name procs dayReason ∈ (controlActivities c rp).1 ∧
    (∀ k ∈ (controlActivities c rp).1, k.activity = name →
      k = Kill.mk name procs dayReason) ∧
    (findRule c.Activities name = none → ruleFor c name = emptyRule name) := by
  have hchar := controlActivities_fst c rp ad hnd had
  have hev : evalOne ad c.LastControlTime.weekday (hhmm c.LastControlTime)
      (ruleFor c name) name = some dayReason := by
    simp only [evalOne, hsch]
  refine ⟨?_, ?_, ?_⟩
  · rw [hchar]
    exact List.mem_filterMap.mpr ⟨(name, procs), mem_of_lookupA hproc,
      by simp [hev, hproc]⟩
  · intro k hk hkname
    rw [hchar] at hk
    obtain ⟨e, he, hfe⟩ := List.mem_filterMap.mp hk
    rcases hE : evalOne ad c.LastControlTime.weekday (hhmm c.LastControlTime)
        (ruleFor c e.1) e.1 with _ | r
    · rw [hE] at hfe
      exact Option.noConfusion hfe
    · rw [hE] at hfe
      have hfe' : Kill.mk e.1 ((lookupA rp e.1).getD []) r = k := Option.some.inj hfe
      have hae : e.1 = name := by
        rw [← hkname, ← hfe']
      rw [hae] at hE hfe'
      have hr : r = dayReason := by
        have h2 := hev
        rw [hE] at h2
        exact Option.some.inj h2
      rw [← hfe', hr, hproc]
      rfl
  · intro h
    simp [ruleFor, h]

/-- Witness for C6: the unknown activity "Steam" is killed with the day
reason. -/
theorem day_default_kill_witness :
    ((rpUnknown.map Prod.fst).Nodup ∧
      lookupA cSample.ActivityDuration cSample.LastControlTime.weekday =
        some [("GTA", 840)] ∧
      lookupA rpUnknown "Steam" = some [pSteam] ∧
      lookupA (ruleFor cSample "Steam").AllowedSchedules
        cSample.LastControlTime.weekday = none) ∧
    Kill.mk "Steam" [pSteam] dayReason ∈ (controlActivities cSample rpUnknown).1 := by
  refine ⟨⟨by decide, by decide, by decide, by decide⟩, ?_⟩
  exact (day_default_kill cSample rpUnknown [("GTA", 840)] "Steam" [pSteam]
    (by decide) (by decide) (by decide) (by decide)).1

/-- Claim C7 (code bug): the source discards the error value of
`regexp.Compile` (`regex, _ := regexp.Compile(processPattern)`), so a
malformed pattern leaves `regex` as a nil `*Regexp`; the very next
`regex.MatchString(rp.Path)` in the process loop dereferences nil and
panics.  Evaluating the embedding at the failing input — one rule whose
only pattern is the malformed "[" and one observed process — yields the
panic (`none`), not a normally completed classification in which the
pattern matches nothing. -/
theorem classification_panics_on_bad_pattern :
    getRunningProcessesPerActivity compileBad cBadPattern [pGTA] = none := by
  decide

/-- Claim C8: when every pattern compiles, classification records a
process under EVERY activity whose pattern list it matches (membership is
not exclusive across activities), and performs no within-activity
deduplication: each matching pattern occurrence contributes its own copy
of the process, so a process matched by two patterns of the same activity
appears (at least) twice in that activity's result list. -/
theorem classification_not_exclusive_no_dedup
    (compile : String → Option (String → Bool)) (c : dadController)
    (procs : List runningProcess)
    (hall : ∀ a ∈ c.Activities, ∀ p ∈ a.ProcessPatterns, (compile p).isSome) :
    ∃ res, getRunningProcessesPerActivity compile c procs = some res ∧
      (∀ a ∈ c.Activities, ∀ pr ∈ procs, ∀ p ∈ a.ProcessPatterns,
        matchB compile p pr.Path = true →
        ∃ l, lookupA res a.Name = some l ∧ pr ∈ l) ∧
      (∀ a ∈ c.Activities, ∀ pr ∈ procs,
        2 ≤ (a.ProcessPatterns.filter fun p => matchB compile p pr.Path).length →
        ∃ l, lookupA res a.Name = some l ∧ 2 ≤ l.count pr) := by
  obtain ⟨res, hres, hlook⟩ := classify_lookup compile c procs hall
  refine ⟨res, hres, ?_, ?_⟩
  · intro a ha pr hpr p hp hm
    have h1 : pr ∈ matchedProcs compile a.ProcessPatterns procs := by
      rw [matchedProcs]
      exact List.mem_flatMap.mpr ⟨p, hp, List.mem_filter.mpr ⟨hpr, by simp [hm]⟩⟩
    have hmem : pr ∈ contrib compile c.Activities procs a.Name := by
      rw [contrib]
      exact List.mem_flatMap.mpr ⟨a, List.mem_filter.mpr ⟨ha, by simp⟩, h1⟩
    have hne : contrib compile c.Activities procs a.Name ≠ [] :=
      List.ne_nil_of_mem hmem
    exact ⟨_, by rw [hlook a.Name, if_neg hne], hmem⟩
  · intro a ha pr hpr h2
    have hmat : 2 ≤ (matchedProcs compile a.ProcessPatterns procs).count pr :=
      h2.trans (length_filter_le_count_matched compile procs pr hpr a.ProcessPatterns)
    have hle := count_le_flatMap
      (fun b => matchedProcs compile b.ProcessPatterns procs) a pr
      (c.Activities.filter fun b => b.Name = a.Name)
      (List.mem_filter.mpr ⟨ha, by simp⟩)
    have hcount : 2 ≤ (contrib compile c.Activities procs a.Name).count pr := by
      rw [contrib]
      exact hmat.trans hle
    have hne : contrib compile c.Activities procs a.Name ≠ [] := by
      intro h0
      rw [h0] at hcount
      simp at hcount
    exact ⟨_, by rw [hlook a.Name, if_neg hne], hcount⟩

/-- Witness for C8: both patterns of `ruleAB` match the single process, so
it is recorded twice under "AB". -/
theorem classification_not_exclusive_no_dedup_witness :
    (∀ a ∈ cAB.Activities, ∀ p ∈ a.ProcessPatterns, (compileAll p).isSome) ∧
    (∃ res, getRunningProcessesPerActivity compileAll cAB [pGTA] = some res ∧
      ∃ l, lookupA res "AB" = some l ∧ 2 ≤ l.count pGTA) := by
  refine ⟨by decide, ?_⟩
  obtain ⟨res, hres, hmem, hdup⟩ :=
    classification_not_exclusive_no_dedup compileAll cAB [pGTA] (by decide)
  obtain ⟨l, hl, hc⟩ := hdup ruleAB (by decide) pGTA (by simp) (by decide)
  exact ⟨res, hres, l, hl, hc⟩

end DadCtl
